import Mathlib

/-!
Verification of the EECS678 scheduler core: a shallow embedding of
`libpriqueue.c` and `libscheduler.c`.

Modelling conventions:
* C pointers to elements become values; `Option` stands for nullable
  pointers (`none` = NULL).
* The backing array `queue_array` of the priority queue is a
  `List (Option α)` of length `max_size`; a cell holding `none` models
  memory that was never written (malloc/realloc leaves it indeterminate,
  and the C code never stores a null pointer in an occupied cell).
* The C structure stores the comparison function set once at
  `priqueue_init`; the embedding passes the comparator explicitly to each
  operation instead of storing a function inside the structure, so that
  queue values have decidable equality.
* Machine `int`/`uint` fields are modelled as `Int`/`Nat`; the simulator
  ticks and job statistics stay far below any overflow boundary, so
  wrap-around is not modelled.
-/

/-- A cell of the backing array: `some x` is a pointer to `x`, `none` is
memory the program never wrote (or NULL). -/
abbrev Cell (α : Type) := Option α

/-- The priority queue structure from `libpriqueue.h` (`queue_array`,
`max_size`, `curr_size`; the `comparer` field is passed explicitly to the
operations instead). -/
structure Priqueue (α : Type) where
  queue_array : List (Cell α)
  max_size : Nat
  curr_size : Nat
deriving DecidableEq

/-- Comparator lifted to cells. The C code applies the comparator to the
stored pointers; applying it to a cell that was never written is undefined
behavior in C, modelled here by the arbitrary result `0`. All verified
executions apply it to written cells only. -/
def cmpCell {α : Type} (cmp : α → α → Int) : Cell α → Cell α → Int
  | some a, some b => cmp a b
  | _, _ => 0

/-- `priqueue_init`: malloc space for 2 cells (indeterminate contents),
`max_size = 2`, `curr_size = 0`. -/
def priqueue_init {α : Type} : Priqueue α :=
  { queue_array := [none, none], max_size := 2, curr_size := 0 }

/-- The sift-forward loop of `priqueue_offer`, acting on the reversed
occupied prefix (so the first list element is the predecessor of the newly
appended cell `x`).  The C loop repeatedly swaps `x` with its predecessor
while the comparator on (predecessor, x) is positive; it stops at the
first predecessor that does not compare positive.  Returns the new
reversed prefix together with the number of swaps performed. -/
def bubbleRev {α : Type} (cmp : α → α → Int) (x : Cell α) :
    List (Cell α) → List (Cell α) × Nat
  | [] => ([x], 0)
  | y :: ys =>
      if 0 < cmpCell cmp y x then
        let r := bubbleRev cmp x ys
        (y :: r.1, r.2 + 1)
      else
        (x :: y :: ys, 0)

/-- `priqueue_offer`: double the backing capacity when
`curr_size + 1 >= max_size` (realloc keeps the old cells, the new region
is indeterminate), write the element one past the occupied prefix,
increment `curr_size`, then sift it toward the front while the comparator
on (predecessor, element) is positive.  Returns the updated queue and the
zero-based index where the element came to rest (`curr_idx` in the C
code: the old `curr_size` minus the number of swaps). -/
def priqueue_offer {α : Type} (cmp : α → α → Int) (q : Priqueue α) (x : α) :
    Priqueue α × Int :=
  let q' :=
    if q.curr_size + 1 ≥ q.max_size then
      { q with queue_array := q.queue_array ++ List.replicate q.max_size none,
               max_size := 2 * q.max_size }
    else q
  let occRev := (q'.queue_array.take q'.curr_size).reverse
  let r := bubbleRev cmp (some x) occRev
  ({ q' with queue_array := r.1.reverse ++ q'.queue_array.drop (q'.curr_size + 1),
             curr_size := q'.curr_size + 1 },
   Int.ofNat (q'.curr_size - r.2))

/-- `priqueue_peek`: returns `queue_array[0]` with no emptiness check
(the C source reads the cell unconditionally). -/
def priqueue_peek {α : Type} (q : Priqueue α) : Cell α :=
  q.queue_array.getD 0 none

/-- `priqueue_poll`: NULL on an empty queue; otherwise decrement
`curr_size`, save `queue_array[0]`, and shift every remaining occupied
cell one position toward the front (positions `0 .. curr_size-1` receive
the next cell; the rest of the backing array is untouched). -/
def priqueue_poll {α : Type} (q : Priqueue α) : Priqueue α × Cell α :=
  if q.curr_size = 0 then (q, none)
  else
    ({ q with curr_size := q.curr_size - 1,
              queue_array :=
                (q.queue_array.drop 1).take (q.curr_size - 1) ++
                  q.queue_array.drop (q.curr_size - 1) },
     q.queue_array.getD 0 none)

/-- `priqueue_at`: the C code guards the index against `max_size` (the
backing capacity), not `curr_size` (the occupied count), and then reads
the cell. -/
def priqueue_at {α : Type} (q : Priqueue α) (index : Int) : Cell α :=
  if (q.max_size : Int) ≤ index then none
  else q.queue_array.getD index.toNat none

/-- `priqueue_remove_at`: saves `queue_array[index]`, then shifts — for
each position `idx` from `index` while `idx < curr_size`, the cell at
`idx` receives the cell at `idx + 1`.  The C code never decrements
`curr_size`. -/
def priqueue_remove_at {α : Type} (q : Priqueue α) (index : Int) :
    Priqueue α × Cell α :=
  let i := index.toNat
  ({ q with queue_array :=
      q.queue_array.take i ++
        (q.queue_array.drop (i + 1)).take (q.curr_size - i) ++
        q.queue_array.drop q.curr_size },
   q.queue_array.getD i none)

/-- `priqueue_size`: returns `curr_size`. -/
def priqueue_size {α : Type} (q : Priqueue α) : Int :=
  Int.ofNat q.curr_size

/-- Job record from `libscheduler.c` (`_job_t`). -/
structure job_t where
  pid : Int
  arrival_time : Int
  priority : Int
  used_time : Int
  total_time_needed : Int
  last_start_time : Int
  job_response_time : Int
deriving DecidableEq

/-- `remainingTime`: total time needed minus used time. -/
def remainingTime (job : job_t) : Int :=
  job.total_time_needed - job.used_time

/-- The six scheduling disciplines (`scheme_t`). -/
inductive scheme_t where
  | FCFS | SJF | PSJF | PRI | PPRI | RR
deriving DecidableEq

/-- `FCFScompare`: always `-1` (keep arrival order). -/
def FCFScompare (a b : job_t) : Int :=
  -1

/-- `SJFcompare`: by remaining time, ties broken by arrival time. -/
def SJFcompare (a b : job_t) : Int :=
  if remainingTime a = remainingTime b then a.arrival_time - b.arrival_time
  else remainingTime a - remainingTime b

/-- `PRIcompare`: by priority, ties broken by arrival time. -/
def PRIcompare (a b : job_t) : Int :=
  if a.priority = b.priority then (b.arrival_time - a.arrival_time) * (-1)
  else (b.priority - a.priority) * (-1)

/-- The comparator installed by the `switch` in `scheduler_start_up`. -/
def schemeComparer : scheme_t → (job_t → job_t → Int)
  | scheme_t.FCFS | scheme_t.RR => FCFScompare
  | scheme_t.SJF | scheme_t.PSJF => SJFcompare
  | scheme_t.PRI | scheme_t.PPRI => PRIcompare

/-- Scheduler state from `libscheduler.c` (`_scheduler_t`).  The
`core_count` field of the C structure equals the length of
`current_jobs_on_cores` and is represented by it. -/
structure scheduler_t where
  scheduler_scheme : scheme_t
  job_queue : Priqueue job_t
  current_jobs_on_cores : List (Option job_t)
  total_wait_time : Int
  total_response_time : Int
  total_turn_around_time : Int
  total_jobs_count : Int
deriving DecidableEq

/-- Stands for the memory behind a null or dangling `job_t` pointer;
dereferencing such a pointer in the C code is undefined behavior.  The
verified statements carry hypotheses ruling these dereferences out. -/
def junkJob : job_t :=
  { pid := 0, arrival_time := 0, priority := 0, used_time := 0,
    total_time_needed := 0, last_start_time := 0, job_response_time := 0 }

/-- Dereference a core slot (`current_jobs_on_cores[i]`). -/
def derefSlot (cores : List (Option job_t)) (i : Int) : job_t :=
  (cores.getD i.toNat none).getD junkJob

/-- `scheduler_start_up`: allocate the zeroed engine state, the core
array of `cores` empty slots, and the queue. -/
def scheduler_start_up (cores : Nat) (scheme : scheme_t) : scheduler_t :=
  { scheduler_scheme := scheme,
    job_queue := priqueue_init,
    current_jobs_on_cores := List.replicate cores none,
    total_wait_time := 0,
    total_response_time := 0,
    total_turn_around_time := 0,
    total_jobs_count := 0 }

/-- The loop of `idleCore`, scanning slots from index `i`. -/
def idleCoreAux : List (Option job_t) → Nat → Int
  | [], _ => -1
  | none :: _, i => Int.ofNat i
  | some _ :: rest, i => idleCoreAux rest (i + 1)

/-- `idleCore`: index of the first empty slot, `-1` if every slot is
occupied. -/
def idleCore (cores : List (Option job_t)) : Int :=
  idleCoreAux cores 0

/-- The loop of `findLongestRemainingJob` with its running state
(`core`, `longest_length`, `arrival_time`); `i` is the index of the first
slot of `rest`.  When a slot is NULL the first condition fails and the C
code falls into the `else if`, dereferencing the null pointer (undefined
behavior, modelled by `junkJob`). -/
def findLRJAux : List (Option job_t) → Nat → Int → Int → Int → Int
  | [], _, core, _, _ => core
  | slot :: rest, i, core, longest, arrival =>
      if slot ≠ none ∧ remainingTime (slot.getD junkJob) > longest then
        findLRJAux rest (i + 1) (Int.ofNat i)
          (remainingTime (slot.getD junkJob)) (slot.getD junkJob).arrival_time
      else if remainingTime (slot.getD junkJob) = longest then
        if (slot.getD junkJob).arrival_time > arrival then
          findLRJAux rest (i + 1) (Int.ofNat i) longest
            (slot.getD junkJob).arrival_time
        else findLRJAux rest (i + 1) core longest arrival
      else findLRJAux rest (i + 1) core longest arrival

/-- `findLongestRemainingJob`: argmax scan starting from
`core = -1`, `longest_length = 0`, `arrival_time = 0`. -/
def findLongestRemainingJob (cores : List (Option job_t)) : Int :=
  findLRJAux cores 0 (-1) 0 0

/-- The loop of `findWorstPriorityJob`; a NULL slot is skipped entirely
(the whole body is guarded by the NULL check). -/
def findWPJAux : List (Option job_t) → Nat → Int → Int → Int → Int
  | [], _, core, _, _ => core
  | none :: rest, i, core, worst, arrival =>
      findWPJAux rest (i + 1) core worst arrival
  | some j :: rest, i, core, worst, arrival =>
      if j.priority > worst then
        findWPJAux rest (i + 1) (Int.ofNat i) j.priority j.arrival_time
      else if j.priority = worst then
        if j.arrival_time > arrival then
          findWPJAux rest (i + 1) (Int.ofNat i) worst j.arrival_time
        else findWPJAux rest (i + 1) core worst arrival
      else findWPJAux rest (i + 1) core worst arrival

/-- `findWorstPriorityJob`: argmax scan starting from
`core = -1`, `worst_priority = 0`, `arrival_time = 0`. -/
def findWorstPriorityJob (cores : List (Option job_t)) : Int :=
  findWPJAux cores 0 (-1) 0 0

/-- The job record calloc-ed and filled at the top of
`scheduler_new_job`. -/
def arrivalJob (job_number time running_time priority : Int) : job_t :=
  { pid := job_number, arrival_time := time, priority := priority,
    used_time := 0, total_time_needed := running_time,
    last_start_time := 0, job_response_time := 0 }

/-- `scheduler_new_job`: build the job record; dispatch directly to the
first idle core when one exists; otherwise apply the PSJF / PPRI
preemption test or enqueue under the non-preemptive schemes. -/
def scheduler_new_job (s : scheduler_t)
    (job_number time running_time priority : Int) : scheduler_t × Int :=
  let job : job_t := arrivalJob job_number time running_time priority
  let first_core := idleCore s.current_jobs_on_cores
  if first_core ≠ -1 then
    let cores' :=
      s.current_jobs_on_cores.set first_core.toNat
        (some { job with last_start_time := time })
    ({ s with current_jobs_on_cores := cores' }, first_core)
  else
    match s.scheduler_scheme with
    | scheme_t.PSJF =>
        let longest_job := findLongestRemainingJob s.current_jobs_on_cores
        let old_job := derefSlot s.current_jobs_on_cores longest_job
        let longest_job_current_remaining_time :=
          remainingTime old_job - (time - old_job.last_start_time)
        if longest_job_current_remaining_time ≤ job.total_time_needed then
          ({ s with job_queue :=
              (priqueue_offer (schemeComparer s.scheduler_scheme)
                s.job_queue job).1 },
           -1)
        else
          let old_job' :=
            { old_job with used_time :=
                old_job.used_time + (time - old_job.last_start_time) }
          let cores' :=
            s.current_jobs_on_cores.set longest_job.toNat
              (some { job with last_start_time := time })
          let q' :=
            (priqueue_offer (schemeComparer s.scheduler_scheme)
              s.job_queue old_job').1
          ({ s with current_jobs_on_cores := cores', job_queue := q' },
           longest_job)
    | scheme_t.PPRI =>
        let worst_priority_idx := findWorstPriorityJob s.current_jobs_on_cores
        let old_job := derefSlot s.current_jobs_on_cores worst_priority_idx
        if old_job.priority ≤ job.priority then
          ({ s with job_queue :=
              (priqueue_offer (schemeComparer s.scheduler_scheme)
                s.job_queue job).1 },
           -1)
        else
          let old_job' :=
            { old_job with used_time :=
                old_job.used_time + (time - old_job.last_start_time) }
          let cores' :=
            s.current_jobs_on_cores.set worst_priority_idx.toNat
              (some { job with last_start_time := time })
          let q' :=
            (priqueue_offer (schemeComparer s.scheduler_scheme)
              s.job_queue old_job').1
          ({ s with current_jobs_on_cores := cores', job_queue := q' },
           worst_priority_idx)
    | _ =>
        ({ s with job_queue :=
            (priqueue_offer (schemeComparer s.scheduler_scheme)
              s.job_queue job).1 },
         -1)

/-- `scheduler_job_finished`: clear the slot, fold the departed job into
the aggregate counters, then poll the queue and either leave the core
idle or install the polled job (recording its response time when it has
never run). -/
def scheduler_job_finished (s : scheduler_t)
    (core_id job_number time : Int) : scheduler_t × Int :=
  let old_job := derefSlot s.current_jobs_on_cores core_id
  let s1 :=
    { s with
        current_jobs_on_cores :=
          s.current_jobs_on_cores.set core_id.toNat none,
        total_jobs_count := s.total_jobs_count + 1,
        total_wait_time :=
          s.total_wait_time +
            (time - old_job.arrival_time - old_job.total_time_needed),
        total_turn_around_time :=
          s.total_turn_around_time + (time - old_job.arrival_time),
        total_response_time :=
          s.total_response_time + old_job.job_response_time }
  let polled := priqueue_poll s1.job_queue
  match polled.2 with
  | none => ({ s1 with job_queue := polled.1 }, -1)
  | some new_job =>
      let new_job' :=
        if new_job.used_time = 0 then
          { new_job with job_response_time := time - new_job.arrival_time }
        else new_job
      let cores' :=
        s1.current_jobs_on_cores.set core_id.toNat
          (some { new_job' with last_start_time := time })
      ({ s1 with job_queue := polled.1, current_jobs_on_cores := cores' },
       new_job'.pid)

/-- `scheduler_quantum_expired`: charge the occupant with its elapsed
run, re-enqueue it, then poll and install exactly as in
`scheduler_job_finished`. -/
def scheduler_quantum_expired (s : scheduler_t)
    (core_id time : Int) : scheduler_t × Int :=
  let old := derefSlot s.current_jobs_on_cores core_id
  let old' :=
    { old with used_time := old.used_time + (time - old.last_start_time) }
  let q1 :=
    (priqueue_offer (schemeComparer s.scheduler_scheme) s.job_queue old').1
  let polled := priqueue_poll q1
  match polled.2 with
  | none => ({ s with job_queue := polled.1 }, -1)
  | some new_job =>
      let new_job' :=
        if new_job.used_time = 0 then
          { new_job with job_response_time := time - new_job.arrival_time }
        else new_job
      let cores' :=
        s.current_jobs_on_cores.set core_id.toNat
          (some { new_job' with last_start_time := time })
      ({ s with job_queue := polled.1, current_jobs_on_cores := cores' },
       new_job'.pid)

/-- A sample job used by the concrete counterexample executions. -/
def jobA : job_t :=
  { pid := 7, arrival_time := 0, priority := 1, used_time := 0,
    total_time_needed := 5, last_start_time := 0, job_response_time := 0 }

/-- A queue that held `jobA` and was then drained: `curr_size = 0` but
cell 0 still physically holds the stale element. -/
def drainedQueue : Priqueue job_t :=
  (priqueue_poll (priqueue_offer FCFScompare priqueue_init jobA).1).1

/-- The occupied prefix of the backing array: the cells the C code
considers to be the queue contents. -/
def Occ {α : Type} (q : Priqueue α) : List (Cell α) :=
  q.queue_array.take q.curr_size

/-- Structural well-formedness maintained by every queue operation: the
backing list has exactly `max_size` cells and there is always at least
one free cell past the occupied prefix (the offer code grows the array
before it would become full). -/
def PqInv {α : Type} (q : Priqueue α) : Prop :=
  q.queue_array.length = q.max_size ∧ q.curr_size < q.max_size

/-- A sequence of `priqueue_offer` calls, returning the final queue and
the list of indices the individual calls returned. -/
def offerAll {α : Type} (cmp : α → α → Int) (q : Priqueue α) :
    List α → Priqueue α × List Int
  | [] => (q, [])
  | x :: xs =>
      let r := priqueue_offer cmp q x
      let rest := offerAll cmp r.1 xs
      (rest.1, r.2 :: rest.2)

/-- `k` successive `priqueue_poll` calls, returning the polled cells in
order. -/
def pollSeq {α : Type} : Nat → Priqueue α → List (Cell α)
  | 0, _ => []
  | k + 1, q => (priqueue_poll q).2 :: pollSeq k (priqueue_poll q).1

/-- Queue invariant for the ordering claim: structurally well formed,
every occupied cell was written, and the reversed occupied prefix is
adjacent-sorted. -/
def SortedInv {α : Type} (cmp : α → α → Int) (q : Priqueue α) : Prop :=
  PqInv q ∧ (∀ c ∈ Occ q, c.isSome = true) ∧
    List.Chain' (fun a b => cmpCell cmp b a ≤ 0) (Occ q).reverse

/-- A trivially consistent and transitive comparator used to witness the
ordering theorem at a concrete instance. -/
def constNegOne : Nat → Nat → Int := fun a b => -1

/-- Strict lexicographic order on (key value, arrival time) pairs: the
order in which the two argmax scans of the scheduler prefer jobs. -/
def lexLt (p q : Int × Int) : Prop :=
  p.1 < q.1 ∨ (p.1 = q.1 ∧ p.2 < q.2)

/-- Common shape of the two argmax loops (`findLRJAux`,
`findWPJAux`) once every scanned slot is known to be occupied: scan with
a key function, keeping the slot whose (key, arrival) pair is
lexicographically largest, starting from the virtual initial state
(`best`, `arrival`). -/
def findBestAux (key : job_t → Int) :
    List (Option job_t) → Nat → Int → Int → Int → Int
  | [], _, core, _, _ => core
  | none :: rest, i, core, best, arrival =>
      findBestAux key rest (i + 1) core best arrival
  | some j :: rest, i, core, best, arrival =>
      if key j > best then
        findBestAux key rest (i + 1) (Int.ofNat i) (key j) j.arrival_time
      else if key j = best then
        if j.arrival_time > arrival then
          findBestAux key rest (i + 1) (Int.ofNat i) best j.arrival_time
        else findBestAux key rest (i + 1) core best arrival
      else findBestAux key rest (i + 1) core best arrival

/-- The running job of the PSJF witness scenario: arrived at t=0 with
run time 10, dispatched immediately. -/
def jobA0 : job_t :=
  { pid := 0, arrival_time := 0, priority := 1, used_time := 0,
    total_time_needed := 10, last_start_time := 0, job_response_time := 0 }

/-- PSJF scheduler state with a single core occupied by `jobA0`. -/
def psjfState : scheduler_t :=
  { scheduler_scheme := scheme_t.PSJF, job_queue := priqueue_init,
    current_jobs_on_cores := [some jobA0],
    total_wait_time := 0, total_response_time := 0,
    total_turn_around_time := 0, total_jobs_count := 0 }

/-- First occupant of the PPRI witness scenario: priority 5, arrived at
t=0. -/
def jobP0 : job_t :=
  { pid := 0, arrival_time := 0, priority := 5, used_time := 0,
    total_time_needed := 10, last_start_time := 0, job_response_time := 0 }

/-- Second occupant of the PPRI witness scenario: priority 5, arrived at
t=1. -/
def jobP1 : job_t :=
  { pid := 1, arrival_time := 1, priority := 5, used_time := 0,
    total_time_needed := 10, last_start_time := 1, job_response_time := 0 }

/-- PPRI scheduler state with two cores occupied by equal-priority jobs
that arrived at t=0 and t=1. -/
def ppriState : scheduler_t :=
  { scheduler_scheme := scheme_t.PPRI, job_queue := priqueue_init,
    current_jobs_on_cores := [some jobP0, some jobP1],
    total_wait_time := 0, total_response_time := 0,
    total_turn_around_time := 0, total_jobs_count := 0 }

/-- The finishing job of the witness scenarios: pid 3, arrived t=0, run
time 4, on a core since t=0. -/
def jobF : job_t :=
  { pid := 3, arrival_time := 0, priority := 1, used_time := 0,
    total_time_needed := 4, last_start_time := 0, job_response_time := 0 }

/-- A waiting job sitting in the queue of the finish witness: pid 4,
arrived t=1, never run. -/
def jobW : job_t :=
  { pid := 4, arrival_time := 1, priority := 1, used_time := 0,
    total_time_needed := 2, last_start_time := 0, job_response_time := 0 }

/-- FCFS scheduler state with `jobF` on the single core and `jobW`
waiting. -/
def finState : scheduler_t :=
  { scheduler_scheme := scheme_t.FCFS,
    job_queue := (priqueue_offer FCFScompare priqueue_init jobW).1,
    current_jobs_on_cores := [some jobF],
    total_wait_time := 0, total_response_time := 0,
    total_turn_around_time := 0, total_jobs_count := 0 }

/-- RR scheduler state with `jobF` on the single core and an empty
queue. -/
def quantState : scheduler_t :=
  { scheduler_scheme := scheme_t.RR,
    job_queue := priqueue_init,
    current_jobs_on_cores := [some jobF],
    total_wait_time := 0, total_response_time := 0,
    total_turn_around_time := 0, total_jobs_count := 0 }

/-- C9 trace, PSJF on one core.  Job 0 arrives at t=0 (run 4); job 1
arrives at t=1 (run 5) and waits; job 0 finishes at t=4 and job 1 is
dispatched for the first time (response time 4 - 1 = 3 recorded); job 2
arrives at the same tick t=4 (run 2) and preempts job 1, whose charged
elapsed run is 4 - 4 = 0, so its used time stays 0; job 2 finishes at
t=6 and job 1 is re-dispatched — its used time is still 0, so the code
overwrites its response time with 6 - 1 = 5; job 1 finishes at t=11. -/
def responseTrace0 : scheduler_t := scheduler_start_up 1 scheme_t.PSJF

/-- t=0: job 0 arrives (run 4) and takes the idle core. -/
def responseTrace1 : scheduler_t × Int :=
  scheduler_new_job responseTrace0 0 0 4 1

/-- t=1: job 1 arrives (run 5); job 0's current remaining 3 is below 5,
so job 1 waits. -/
def responseTrace2 : scheduler_t × Int :=
  scheduler_new_job responseTrace1.1 1 1 5 1

/-- t=4: job 0 finishes; job 1 is dispatched for the first time. -/
def responseTrace3 : scheduler_t × Int :=
  scheduler_job_finished responseTrace2.1 0 0 4

/-- t=4: job 2 arrives (run 2) and preempts job 1 at the very tick of
its dispatch, charging it 0 elapsed run. -/
def responseTrace4 : scheduler_t × Int :=
  scheduler_new_job responseTrace3.1 2 4 2 1

/-- t=6: job 2 finishes; job 1 is re-dispatched with used time still
0. -/
def responseTrace5 : scheduler_t × Int :=
  scheduler_job_finished responseTrace4.1 0 2 6

/-- t=11: job 1 finishes. -/
def responseTrace6 : scheduler_t × Int :=
  scheduler_job_finished responseTrace5.1 0 1 11

/-- C4: after removing the only element of a one-element queue with
`priqueue_remove_at 0`, the size is still 1 — the C code never
decrements `curr_size`, so the claim that `Size()` afterwards equals
`n - 1` fails (here `n = 1`).  The removed element is returned
correctly; only the size is wrong. -/
theorem priqueue_remove_at_keeps_size :
    (priqueue_remove_at (priqueue_offer FCFScompare priqueue_init jobA).1
        0).2 = some jobA ∧
    priqueue_size
        (priqueue_remove_at (priqueue_offer FCFScompare priqueue_init jobA).1
          0).1 = 1 := by
  decide

/-- C5: on a queue whose single element was offered and then polled
(`curr_size = 0`, capacity 2), `priqueue_at 0` returns the stale element
instead of the empty result: the C code guards the index against
`max_size` (capacity) rather than `curr_size` (occupied count),
contradicting its own doc comment (NULL when the queue does not contain
an index-th element). -/
theorem priqueue_at_returns_stale_cell :
    priqueue_size drainedQueue = 0 ∧
    priqueue_at drainedQueue 0 = some jobA := by
  decide

/-- C6: `priqueue_peek` reads `queue_array[0]` with no emptiness check,
so on the same drained queue (size 0) it returns the stale former
element instead of the empty result its doc comment promises. -/
theorem priqueue_peek_missing_empty_check :
    priqueue_size drainedQueue = 0 ∧
    priqueue_peek drainedQueue = some jobA := by
  decide

theorem pqInv_init {α : Type} : PqInv (priqueue_init : Priqueue α) := by
  constructor <;> simp [priqueue_init]

theorem bubbleRev_length {α : Type} (cmp : α → α → Int) (x : Cell α) :
    ∀ l : List (Cell α), ((bubbleRev cmp x l).1).length = l.length + 1 := by
  intro l
  induction l with
  | nil => simp [bubbleRev]
  | cons y ys ih =>
      by_cases h : 0 < cmpCell cmp y x
      · simp [bubbleRev, h, ih]
      · simp [bubbleRev, h]

theorem mem_bubbleRev {α : Type} (cmp : α → α → Int) (x : Cell α) :
    ∀ (l : List (Cell α)) (z : Cell α),
      z ∈ (bubbleRev cmp x l).1 → z = x ∨ z ∈ l := by
  intro l
  induction l with
  | nil => intro z hz; simp [bubbleRev] at hz; exact Or.inl hz
  | cons y ys ih =>
      intro z hz
      by_cases h : 0 < cmpCell cmp y x
      · simp only [bubbleRev, if_pos h, List.mem_cons] at hz
        rcases hz with hz | hz
        · exact Or.inr (by simp [hz])
        · rcases ih z hz with h1 | h1
          · exact Or.inl h1
          · exact Or.inr (by simp [h1])
      · simp only [bubbleRev, if_neg h, List.mem_cons] at hz
        rcases hz with hz | hz | hz
        · exact Or.inl hz
        · exact Or.inr (by simp [hz])
        · exact Or.inr (by simp [hz])

/-- Core description of one `priqueue_offer` call on a well-formed
queue: the structural invariant is preserved, the size grows by one, the
new occupied prefix is the sift-result, and the returned index is the
old size minus the number of swaps. -/
theorem offer_occupied {α : Type} (cmp : α → α → Int) (q : Priqueue α)
    (x : α) (hq : PqInv q) :
    PqInv (priqueue_offer cmp q x).1 ∧
    (priqueue_offer cmp q x).1.curr_size = q.curr_size + 1 ∧
    Occ (priqueue_offer cmp q x).1 =
      (bubbleRev cmp (some x) (Occ q).reverse).1.reverse ∧
    (priqueue_offer cmp q x).2 =
      Int.ofNat (q.curr_size - (bubbleRev cmp (some x) (Occ q).reverse).2) := by
  obtain ⟨hlen, hlt⟩ := hq
  by_cases hg : q.curr_size + 1 ≥ q.max_size
  · -- growth case
    have hle : q.curr_size ≤ q.queue_array.length := by omega
    have htake :
        (q.queue_array ++ List.replicate q.max_size none).take q.curr_size =
          q.queue_array.take q.curr_size := by
      rw [List.take_append_of_le_length hle]
    have hlen2 :
        (q.queue_array ++ List.replicate q.max_size none).length =
          2 * q.max_size := by
      simp [hlen]; omega
    have hblen :
        ((bubbleRev cmp (some x) ((q.queue_array.take q.curr_size).reverse)).1).length
          = q.curr_size + 1 := by
      rw [bubbleRev_length]
      simp [List.length_take]
      omega
    constructor
    · constructor
      · simp only [priqueue_offer, if_pos hg]
        simp only [htake]
        rw [List.length_append, List.length_reverse, hblen, List.length_drop,
          hlen2]
        omega
      · simp only [priqueue_offer, if_pos hg]
        omega
    · refine ⟨by simp [priqueue_offer, if_pos hg], ?_, ?_⟩
      · simp only [priqueue_offer, if_pos hg, Occ, htake]
        rw [List.take_append_of_le_length (by rw [List.length_reverse, hblen])]
        rw [List.take_of_length_le (by rw [List.length_reverse, hblen])]
      · simp [priqueue_offer, if_pos hg, Occ, htake]
  · -- no-growth case
    have hlt2 : q.curr_size + 1 < q.max_size := by omega
    have hblen :
        ((bubbleRev cmp (some x) ((q.queue_array.take q.curr_size).reverse)).1).length
          = q.curr_size + 1 := by
      rw [bubbleRev_length]
      simp [List.length_take]
      omega
    constructor
    · constructor
      · simp only [priqueue_offer, if_neg hg]
        rw [List.length_append, List.length_reverse, hblen, List.length_drop,
          hlen]
        omega
      · simp only [priqueue_offer, if_neg hg]
        omega
    · refine ⟨by simp [priqueue_offer, if_neg hg], ?_, ?_⟩
      · simp only [priqueue_offer, if_neg hg, Occ]
        rw [List.take_append_of_le_length (by rw [List.length_reverse, hblen])]
        rw [List.take_of_length_le (by rw [List.length_reverse, hblen])]
      · simp [priqueue_offer, if_neg hg, Occ]

theorem cmpCell_fcfs_nonpos (a b : Cell job_t) :
    cmpCell FCFScompare a b ≤ 0 := by
  cases a <;> cases b <;> simp [cmpCell, FCFScompare]

theorem bubbleRev_fcfs (x : Cell job_t) (l : List (Cell job_t)) :
    bubbleRev FCFScompare x l = (x :: l, 0) := by
  cases l with
  | nil => simp [bubbleRev]
  | cons y ys =>
      have h : ¬ 0 < cmpCell FCFScompare y x := by
        have := cmpCell_fcfs_nonpos y x
        omega
      simp [bubbleRev, h]

/-- Under the FCFS/RR comparator an offer appends at the back and
returns the old size as its index. -/
theorem offer_fcfs (q : Priqueue job_t) (x : job_t) (hq : PqInv q) :
    PqInv (priqueue_offer FCFScompare q x).1 ∧
    (priqueue_offer FCFScompare q x).1.curr_size = q.curr_size + 1 ∧
    Occ (priqueue_offer FCFScompare q x).1 = Occ q ++ [some x] ∧
    (priqueue_offer FCFScompare q x).2 = Int.ofNat q.curr_size := by
  obtain ⟨h1, h2, h3, h4⟩ := offer_occupied FCFScompare q x hq
  refine ⟨h1, h2, ?_, ?_⟩
  · rw [h3, bubbleRev_fcfs]
    simp
  · rw [h4, bubbleRev_fcfs]
    simp

/-- Polling a well-formed queue `curr_size` times returns exactly the
occupied prefix, in order. -/
theorem pollSeq_drain {α : Type} :
    ∀ (k : Nat) (q : Priqueue α), PqInv q → q.curr_size = k →
      pollSeq k q = Occ q := by
  intro k
  induction k with
  | zero => intro q _ hk; simp [pollSeq, Occ, hk]
  | succ k ih =>
      intro q hq hk
      obtain ⟨hlen, hlt⟩ := hq
      have hne : ¬ q.curr_size = 0 := by omega
      have hlenpos : 0 < q.queue_array.length := by omega
      obtain ⟨a, A', hA⟩ : ∃ a A', q.queue_array = a :: A' :=
        List.exists_cons_of_ne_nil (List.ne_nil_of_length_pos hlenpos)
      have hApos : k + 1 ≤ A'.length + 1 := by
        have := hlen
        rw [hA] at this
        simp at this
        omega
      have hpoll1 :
          (priqueue_poll q).1 =
            { q with curr_size := k,
                     queue_array :=
                       (q.queue_array.drop 1).take k ++
                         q.queue_array.drop k } := by
        simp [priqueue_poll, hne, hk]
      have hpoll2 : (priqueue_poll q).2 = q.queue_array.getD 0 none := by
        simp [priqueue_poll, hne]
      have hk' : k ≤ A'.length := by
        rw [hA] at hlen
        simp at hlen
        omega
      have htk : ((q.queue_array.drop 1).take k).length = k := by
        rw [hA]
        simp
        omega
      have hinv1 : PqInv (priqueue_poll q).1 := by
        rw [hpoll1]
        constructor
        · simp only [List.length_append, List.length_take, List.length_drop,
            hlen]
          omega
        · simp
          omega
      have hsz1 : (priqueue_poll q).1.curr_size = k := by
        rw [hpoll1]
      have hocc1 : Occ (priqueue_poll q).1 = (q.queue_array.drop 1).take k := by
        rw [hpoll1]
        simp only [Occ]
        rw [List.take_append_of_le_length (by rw [htk]),
          List.take_of_length_le (by rw [htk])]
      have hgetD : q.queue_array.getD 0 none = a := by rw [hA]; rfl
      have hocc : Occ q = a :: (q.queue_array.drop 1).take k := by
        simp only [Occ, hk, hA]
        simp [List.take_cons]
      rw [pollSeq, ih (priqueue_poll q).1 hinv1 hsz1, hpoll2, hgetD, hocc1,
        hocc]

/-- Offering a list of jobs under the FCFS comparator appends them in
order and returns the successive back positions. -/
theorem offerAll_fcfs :
    ∀ (xs : List job_t) (q : Priqueue job_t), PqInv q →
      PqInv (offerAll FCFScompare q xs).1 ∧
      (offerAll FCFScompare q xs).1.curr_size = q.curr_size + xs.length ∧
      Occ (offerAll FCFScompare q xs).1 = Occ q ++ xs.map some ∧
      (offerAll FCFScompare q xs).2 =
        (List.range' q.curr_size xs.length).map Int.ofNat := by
  intro xs
  induction xs with
  | nil => intro q hq; simpa [offerAll] using hq
  | cons x xs ih =>
      intro q hq
      obtain ⟨h1, h2, h3, h4⟩ := offer_fcfs q x hq
      obtain ⟨g1, g2, g3, g4⟩ := ih (priqueue_offer FCFScompare q x).1 h1
      refine ⟨g1, ?_, ?_, ?_⟩
      · simp only [offerAll]
        rw [g2, h2]
        simp
        omega
      · simp only [offerAll]
        rw [g3, h3]
        simp
      · simp only [offerAll, List.length_cons]
        rw [g4, h4, h2, List.range'_succ]
        simp

/-- C8: inserting any sequence of elements under the FCFS/RR comparator
(`FCFScompare`, which always signals that prior order is kept) makes
every `priqueue_offer` return the position at the back of the current
sequence (0, 1, 2, ...), and repeatedly polling afterwards returns the
elements in exactly their insertion order. -/
theorem fcfs_offer_poll_fifo (xs : List job_t) :
    (offerAll FCFScompare priqueue_init xs).2 =
      (List.range xs.length).map Int.ofNat ∧
    pollSeq (offerAll FCFScompare priqueue_init xs).1.curr_size
        (offerAll FCFScompare priqueue_init xs).1 = xs.map some := by
  obtain ⟨g1, g2, g3, g4⟩ := offerAll_fcfs xs priqueue_init pqInv_init
  constructor
  · rw [g4]
    simp [priqueue_init, List.range_eq_range']
  · rw [pollSeq_drain _ _ g1 rfl, g3]
    simp [Occ, priqueue_init]

/-- Consistency of a comparator, lifted to cells: an unwritten cell
compares as 0 on either side, so only the element-level hypothesis is
needed. -/
theorem cmpCell_cons {α : Type} (cmp : α → α → Int)
    (hcons : ∀ a b, 0 < cmp a b → cmp b a ≤ 0) (a b : Cell α)
    (h : 0 < cmpCell cmp a b) : cmpCell cmp b a ≤ 0 := by
  cases a with
  | none => simp [cmpCell] at h
  | some x =>
      cases b with
      | none => simp [cmpCell] at h
      | some y => exact hcons x y h

/-- The sift loop preserves adjacent sortedness of the reversed occupied
prefix: in the reversed order the relation says that the later cell never
has to precede the earlier one. -/
theorem chain'_bubbleRev {α : Type} (cmp : α → α → Int)
    (hcons : ∀ a b, 0 < cmp a b → cmp b a ≤ 0) (x : Cell α) :
    ∀ l : List (Cell α),
      List.Chain' (fun a b => cmpCell cmp b a ≤ 0) l →
      List.Chain' (fun a b => cmpCell cmp b a ≤ 0) (bubbleRev cmp x l).1 := by
  intro l
  induction l with
  | nil => intro _; simp [bubbleRev]
  | cons y ys ih =>
      intro hch
      by_cases h : 0 < cmpCell cmp y x
      · simp only [bubbleRev, if_pos h]
        have hys : List.Chain' (fun a b => cmpCell cmp b a ≤ 0) ys :=
          hch.tail
        refine List.chain'_cons'.2 ⟨?_, ih hys⟩
        intro z hz
        cases ys with
        | nil =>
            simp [bubbleRev] at hz
            subst hz
            exact cmpCell_cons cmp hcons y x h
        | cons w ws =>
            by_cases h2 : 0 < cmpCell cmp w x
            · simp only [bubbleRev, if_pos h2] at hz
              simp at hz
              subst hz
              exact (List.chain'_cons.1 hch).1
            · simp only [bubbleRev, if_neg h2] at hz
              simp at hz
              subst hz
              exact cmpCell_cons cmp hcons y x h
      · simp only [bubbleRev, if_neg h]
        refine List.chain'_cons'.2 ⟨?_, hch⟩
        intro z hz
        simp at hz
        subst hz
        omega

theorem sortedInv_init {α : Type} (cmp : α → α → Int) :
    SortedInv cmp (priqueue_init : Priqueue α) := by
  refine ⟨pqInv_init, ?_, ?_⟩ <;> simp [Occ, priqueue_init]

theorem sortedInv_offer {α : Type} (cmp : α → α → Int)
    (hcons : ∀ a b, 0 < cmp a b → cmp b a ≤ 0) (q : Priqueue α) (x : α)
    (hq : SortedInv cmp q) : SortedInv cmp (priqueue_offer cmp q x).1 := by
  obtain ⟨hinv, hsome, hch⟩ := hq
  obtain ⟨h1, _, h3, _⟩ := offer_occupied cmp q x hinv
  refine ⟨h1, ?_, ?_⟩
  · intro c hc
    rw [h3] at hc
    rw [List.mem_reverse] at hc
    rcases mem_bubbleRev cmp (some x) _ c hc with h | h
    · rw [h]; rfl
    · rw [List.mem_reverse] at h
      exact hsome c h
  · rw [h3, List.reverse_reverse]
    exact chain'_bubbleRev cmp hcons (some x) _ hch

theorem sortedInv_offerAll {α : Type} (cmp : α → α → Int)
    (hcons : ∀ a b, 0 < cmp a b → cmp b a ≤ 0) :
    ∀ (xs : List α) (q : Priqueue α), SortedInv cmp q →
      SortedInv cmp (offerAll cmp q xs).1 := by
  intro xs
  induction xs with
  | nil => intro q hq; exact hq
  | cons x xs ih =>
      intro q hq
      exact ih _ (sortedInv_offer cmp hcons q x hq)

/-- Reading a valid occupied position through `priqueue_at` yields the
corresponding cell of the occupied prefix. -/
theorem priqueue_at_occ {α : Type} (q : Priqueue α) (hq : PqInv q)
    (j : Nat) (hj : j < q.curr_size) :
    priqueue_at q (Int.ofNat j) =
      (Occ q).get ⟨j, by
        have h1 := hq.1
        have h2 := hq.2
        simp [Occ, List.length_take]
        omega⟩ := by
  obtain ⟨hlen, hlt⟩ := hq
  have hjm : j < q.max_size := by omega
  have hjl : j < q.queue_array.length := by omega
  have hcond : ¬ ((q.max_size : Int) ≤ Int.ofNat j) := by
    show ¬ ((q.max_size : Int) ≤ (j : Int))
    omega
  rw [priqueue_at, if_neg hcond]
  have htn : (Int.ofNat j).toNat = j := rfl
  rw [htn]
  rw [List.getD_eq_getElem q.queue_array none hjl]
  simp only [Occ, List.get_eq_getElem]
  rw [List.getElem_take']
  exact hj

/-- C7: for every consistent and transitive comparator and every
sequence of inserts starting from a fresh queue, each adjacent pair of
occupied positions satisfies the comparator non-positively: `At i` never
has to follow `At (i+1)`. -/
theorem priqueue_offer_adjacent_sorted {α : Type} (cmp : α → α → Int)
    (hcons : ∀ a b, 0 < cmp a b → cmp b a ≤ 0)
    (htrans : ∀ a b c, cmp a b ≤ 0 → cmp b c ≤ 0 → cmp a c ≤ 0)
    (xs : List α) (i : Nat)
    (hi : i + 1 < ((offerAll cmp priqueue_init xs).1).curr_size) :
    ∃ a b,
      priqueue_at (offerAll cmp priqueue_init xs).1 (Int.ofNat i) = some a ∧
      priqueue_at (offerAll cmp priqueue_init xs).1 (Int.ofNat (i + 1)) =
        some b ∧
      cmp a b ≤ 0 := by
  obtain ⟨hinv, hsome, hch⟩ :=
    sortedInv_offerAll cmp hcons xs priqueue_init (sortedInv_init cmp)
  obtain ⟨hlen, hlt⟩ := hinv
  set Q := (offerAll cmp priqueue_init xs).1 with hQ
  have hOccLen : (Occ Q).length = Q.curr_size := by
    simp [Occ, List.length_take]
    omega
  have hch2 :
      List.Chain' (fun a b => cmpCell cmp a b ≤ 0) (Occ Q) := by
    have h := (List.chain'_reverse (l := Occ Q)).mp hch
    exact h
  have hpair := (List.chain'_iff_get.mp hch2) i (by omega)
  have hat1 := priqueue_at_occ Q ⟨hlen, hlt⟩ i (by omega)
  have hat2 := priqueue_at_occ Q ⟨hlen, hlt⟩ (i + 1) (by omega)
  have hmem1 : (Occ Q).get ⟨i, by omega⟩ ∈ Occ Q := List.get_mem _ _ _
  have hmem2 : (Occ Q).get ⟨i + 1, by omega⟩ ∈ Occ Q := List.get_mem _ _ _
  obtain ⟨a, ha⟩ := Option.isSome_iff_exists.mp (hsome _ hmem1)
  obtain ⟨b, hb⟩ := Option.isSome_iff_exists.mp (hsome _ hmem2)
  refine ⟨a, b, ?_, ?_, ?_⟩
  · rw [hat1, ha]
  · rw [hat2, hb]
  · rw [ha, hb] at hpair
    exact hpair

/-- Witness for the ordering claim: two inserts under a concrete
comparator, adjacent pair at positions 0 and 1. -/
theorem priqueue_offer_adjacent_sorted_witness :
    (∀ a b : Nat, 0 < constNegOne a b → constNegOne b a ≤ 0) ∧
    (∀ a b c : Nat,
      constNegOne a b ≤ 0 → constNegOne b c ≤ 0 → constNegOne a c ≤ 0) ∧
    0 + 1 < ((offerAll constNegOne priqueue_init [1, 2]).1).curr_size ∧
    (∃ a b,
      priqueue_at (offerAll constNegOne priqueue_init [1, 2]).1
          (Int.ofNat 0) = some a ∧
      priqueue_at (offerAll constNegOne priqueue_init [1, 2]).1
          (Int.ofNat (0 + 1)) = some b ∧
      constNegOne a b ≤ 0) :=
  ⟨fun a b h => absurd h (by simp only [constNegOne]; decide),
   fun a b c h1 h2 => by simp only [constNegOne]; decide,
   by decide,
   priqueue_offer_adjacent_sorted constNegOne
     (fun a b h => absurd h (by simp only [constNegOne]; decide))
     (fun a b c h1 h2 => by simp only [constNegOne]; decide) [1, 2] 0
     (by decide)⟩

theorem lexLt_trans {p q r : Int × Int} (h1 : lexLt p q) (h2 : lexLt q r) :
    lexLt p r := by
  obtain ⟨p1, p2⟩ := p
  obtain ⟨q1, q2⟩ := q
  obtain ⟨r1, r2⟩ := r
  simp only [lexLt] at h1 h2 ⊢
  omega

theorem lexLt_total {p q : Int × Int} (h : p ≠ q) : lexLt p q ∨ lexLt q p := by
  obtain ⟨p1, p2⟩ := p
  obtain ⟨q1, q2⟩ := q
  simp only [lexLt, Prod.mk.injEq, ne_eq] at h ⊢
  omega

/-- On all-occupied slot lists the PSJF scan coincides with the generic
argmax scan keyed on remaining time. -/
theorem findLRJAux_eq_best :
    ∀ (rest : List (Option job_t)) (i : Nat) (core best arrival : Int),
      (∀ s ∈ rest, s.isSome = true) →
      findLRJAux rest i core best arrival =
        findBestAux remainingTime rest i core best arrival := by
  intro rest
  induction rest with
  | nil => intro i core best arrival _; rfl
  | cons slot rest ih =>
      intro i core best arrival hsome
      have hrest : ∀ s ∈ rest, s.isSome = true := by
        intro s hs
        exact hsome s (List.mem_cons_of_mem _ hs)
      cases slot with
      | none =>
          have := hsome none (List.mem_cons_self _ _)
          simp at this
      | some j =>
          simp only [findLRJAux, findBestAux, Option.getD_some]
          have hne : (some j ≠ (none : Option job_t)) = True := by simp
          by_cases h1 : remainingTime j > best
          · simp [h1, ih _ _ _ _ hrest]
          · by_cases h2 : remainingTime j = best
            · by_cases h3 : j.arrival_time > arrival
              · simp [h1, h2, h3, ih _ _ _ _ hrest]
              · simp [h1, h2, h3, ih _ _ _ _ hrest]
            · simp [h1, h2, ih _ _ _ _ hrest]

/-- On all-occupied slot lists the PPRI scan coincides with the generic
argmax scan keyed on priority. -/
theorem findWPJAux_eq_best :
    ∀ (rest : List (Option job_t)) (i : Nat) (core best arrival : Int),
      (∀ s ∈ rest, s.isSome = true) →
      findWPJAux rest i core best arrival =
        findBestAux (fun j => j.priority) rest i core best arrival := by
  intro rest
  induction rest with
  | nil => intro i core best arrival _; rfl
  | cons slot rest ih =>
      intro i core best arrival hsome
      have hrest : ∀ s ∈ rest, s.isSome = true := by
        intro s hs
        exact hsome s (List.mem_cons_of_mem _ hs)
      cases slot with
      | none =>
          have := hsome none (List.mem_cons_self _ _)
          simp at this
      | some j =>
          simp only [findWPJAux, findBestAux]
          by_cases h1 : j.priority > best
          · simp [h1, ih _ _ _ _ hrest]
          · by_cases h2 : j.priority = best
            · by_cases h3 : j.arrival_time > arrival
              · simp [h1, h2, h3, ih _ _ _ _ hrest]
              · simp [h1, h2, h3, ih _ _ _ _ hrest]
            · simp [h1, h2, ih _ _ _ _ hrest]

theorem findBestAux_cons_update (key : job_t → Int) (j : job_t)
    (rest : List (Option job_t)) (i : Nat) (core best arrival : Int)
    (h : lexLt (best, arrival) (key j, j.arrival_time)) :
    findBestAux key (some j :: rest) i core best arrival =
      findBestAux key rest (i + 1) (Int.ofNat i) (key j) j.arrival_time := by
  rcases h with h | ⟨h1, h2⟩
  · simp only [findBestAux]
    rw [if_pos h]
  · simp only [] at h1 h2
    have hb1 : ¬ key j > best := by omega
    simp only [findBestAux]
    rw [if_neg hb1, if_pos h1.symm, if_pos h2, h1]

theorem findBestAux_cons_keep (key : job_t → Int) (j : job_t)
    (rest : List (Option job_t)) (i : Nat) (core best arrival : Int)
    (h : ¬ lexLt (best, arrival) (key j, j.arrival_time)) :
    findBestAux key (some j :: rest) i core best arrival =
      findBestAux key rest (i + 1) core best arrival := by
  have hb1 : ¬ key j > best := fun hc => h (Or.inl hc)
  by_cases he : key j = best
  · have ha : ¬ j.arrival_time > arrival := fun hc => h (Or.inr ⟨he.symm, hc⟩)
    simp only [findBestAux]
    rw [if_neg hb1, if_pos he, if_neg ha]
  · simp only [findBestAux]
    rw [if_neg hb1, if_neg he]

/-- Correctness of the generic argmax scan: starting from the virtual
initial state, either no scanned job beats it (and the carried `core`
comes back), or the scan returns the index of the unique occupied slot
whose (key, arrival) pair is lexicographically largest. -/
theorem findBestAux_spec (key : job_t → Int) :
    ∀ (rest : List (Option job_t)) (i : Nat) (core best arrival : Int),
      (∀ s ∈ rest, s.isSome = true) →
      (∀ j, some j ∈ rest → (key j, j.arrival_time) ≠ (best, arrival)) →
      ((rest.filterMap id).Pairwise
        (fun a b => (key a, a.arrival_time) ≠ (key b, b.arrival_time))) →
      ((findBestAux key rest i core best arrival = core ∧
        ∀ j, some j ∈ rest →
          lexLt (key j, j.arrival_time) (best, arrival)) ∨
       (∃ k, ∃ hk : k < rest.length, ∃ D,
         rest.get ⟨k, hk⟩ = some D ∧
         findBestAux key rest i core best arrival = Int.ofNat (i + k) ∧
         lexLt (best, arrival) (key D, D.arrival_time) ∧
         ∀ k2 (hk2 : k2 < rest.length), k2 ≠ k → ∀ j,
           rest.get ⟨k2, hk2⟩ = some j →
           lexLt (key j, j.arrival_time) (key D, D.arrival_time))) := by
  intro rest
  induction rest with
  | nil =>
      intro i core best arrival _ _ _
      left
      refine ⟨rfl, ?_⟩
      intro j hj
      simp at hj
  | cons slot rest ih =>
      intro i core best arrival hsome hne hpw
      cases slot with
      | none =>
          have := hsome none (List.mem_cons_self _ _)
          simp at this
      | some j =>
          have hrsome : ∀ s ∈ rest, s.isSome = true := by
            intro s hs
            exact hsome s (List.mem_cons_of_mem _ hs)
          have hfm :
              (some j :: rest).filterMap (@id (Option job_t)) =
                j :: rest.filterMap id := by
            simp
          rw [hfm] at hpw
          obtain ⟨hhead, htail⟩ := List.pairwise_cons.1 hpw
          have hmemtail : ∀ j2, some j2 ∈ rest → j2 ∈ rest.filterMap id := by
            intro j2 h2
            rw [List.mem_filterMap]
            exact ⟨some j2, h2, rfl⟩
          by_cases hup : lexLt (best, arrival) (key j, j.arrival_time)
          · rw [findBestAux_cons_update key j rest i core best arrival hup]
            have hne' : ∀ j2, some j2 ∈ rest →
                (key j2, j2.arrival_time) ≠ (key j, j.arrival_time) := by
              intro j2 h2 heq
              exact hhead j2 (hmemtail j2 h2) heq.symm
            rcases ih (i + 1) (Int.ofNat i) (key j) j.arrival_time hrsome hne'
                htail with
              ⟨heq, hall⟩ | ⟨k, hk, D, hget, heq, hlt, hothers⟩
            · right
              refine ⟨0, by simp, j, rfl, ?_, hup, ?_⟩
              · rw [heq]
                congr 1
              · intro k2 hk2 hne2 j3 hget3
                cases k2 with
                | zero => exact absurd rfl hne2
                | succ k2' =>
                    have hk2' : k2' < rest.length := by
                      simp only [List.length_cons] at hk2
                      omega
                    have hget3' : rest.get ⟨k2', hk2'⟩ = some j3 := hget3
                    have hmem : some j3 ∈ rest := by
                      rw [← hget3']
                      exact List.get_mem _ _ _
                    exact hall j3 hmem
            · right
              have hk1 : k + 1 < (some j :: rest).length := by
                simp only [List.length_cons]
                omega
              refine ⟨k + 1, hk1, D, hget, ?_, lexLt_trans hup hlt, ?_⟩
              · rw [heq]
                congr 1
                omega
              · intro k2 hk2 hne2 j3 hget3
                cases k2 with
                | zero =>
                    have : j = j3 := by
                      have h0 : (some j :: rest).get ⟨0, hk2⟩ = some j := rfl
                      rw [h0] at hget3
                      exact Option.some.inj hget3
                    subst this
                    exact hlt
                | succ k2' =>
                    have hk2' : k2' < rest.length := by
                      simp only [List.length_cons] at hk2
                      omega
                    have hne2' : k2' ≠ k := by omega
                    exact hothers k2' hk2' hne2' j3 hget3
          · rw [findBestAux_cons_keep key j rest i core best arrival hup]
            have hpj : (key j, j.arrival_time) ≠ (best, arrival) :=
              hne j (List.mem_cons_self _ _)
            have hjlt : lexLt (key j, j.arrival_time) (best, arrival) := by
              rcases lexLt_total hpj with h | h
              · exact h
              · exact absurd h hup
            have hne'' : ∀ j2, some j2 ∈ rest →
                (key j2, j2.arrival_time) ≠ (best, arrival) := by
              intro j2 h2
              exact hne j2 (List.mem_cons_of_mem _ h2)
            rcases ih (i + 1) core best arrival hrsome hne'' htail with
              ⟨heq, hall⟩ | ⟨k, hk, D, hget, heq, hlt, hothers⟩
            · left
              refine ⟨heq, ?_⟩
              intro j2 h2
              rcases List.mem_cons.1 h2 with h2 | h2
              · have : j2 = j := Option.some.inj h2
                subst this
                exact hjlt
              · exact hall j2 h2
            · right
              have hk1 : k + 1 < (some j :: rest).length := by
                simp only [List.length_cons]
                omega
              refine ⟨k + 1, hk1, D, hget, ?_, hlt, ?_⟩
              · rw [heq]
                congr 1
                omega
              · intro k2 hk2 hne2 j3 hget3
                cases k2 with
                | zero =>
                    have : j = j3 := by
                      have h0 : (some j :: rest).get ⟨0, hk2⟩ = some j := rfl
                      rw [h0] at hget3
                      exact Option.some.inj hget3
                    subst this
                    exact lexLt_trans hjlt hlt
                | succ k2' =>
                    have hk2' : k2' < rest.length := by
                      simp only [List.length_cons] at hk2
                      omega
                    have hne2' : k2' ≠ k := by omega
                    exact hothers k2' hk2' hne2' j3 hget3

theorem mem_filterMap_id {j : job_t} {l : List (Option job_t)}
    (h : some j ∈ l) : j ∈ l.filterMap id := by
  rw [List.mem_filterMap]
  exact ⟨some j, h, rfl⟩

theorem idleCoreAux_all_some :
    ∀ (cores : List (Option job_t)) (i : Nat),
      (∀ s ∈ cores, s.isSome = true) → idleCoreAux cores i = -1 := by
  intro cores
  induction cores with
  | nil => intro i _; rfl
  | cons slot rest ih =>
      intro i hsome
      cases slot with
      | none =>
          have := hsome none (List.mem_cons_self _ _)
          simp at this
      | some j =>
          exact ih (i + 1) fun s hs => hsome s (List.mem_cons_of_mem _ hs)

/-- With every core occupied, `idleCore` reports no idle slot. -/
theorem idleCore_all_some (cores : List (Option job_t))
    (h : ∀ s ∈ cores, s.isSome = true) : idleCore cores = -1 :=
  idleCoreAux_all_some cores 0 h

theorem derefSlot_get (cores : List (Option job_t)) (c : Nat)
    (hc : c < cores.length) (D : job_t) (h : cores.get ⟨c, hc⟩ = some D) :
    derefSlot cores (Int.ofNat c) = D := by
  rw [derefSlot]
  have htn : (Int.ofNat c).toNat = c := rfl
  rw [htn, List.getD_eq_getElem cores none hc]
  rw [List.get_eq_getElem] at h
  rw [h]
  rfl

/-- `findLongestRemainingJob` on a fully-occupied non-empty core array
whose jobs have positive remaining time and pairwise distinct arrival
times returns the slot of the job with the greatest remaining time, ties
broken toward the later arrival time. -/
theorem findLongestRemainingJob_spec (cores : List (Option job_t))
    (hsome : ∀ s ∈ cores, s.isSome = true)
    (hne : cores ≠ [])
    (hpos : ∀ j ∈ cores.filterMap id, 0 < remainingTime j)
    (hdist : (cores.filterMap id).Pairwise
      (fun a b => a.arrival_time ≠ b.arrival_time)) :
    ∃ c, ∃ hc : c < cores.length, ∃ D,
      cores.get ⟨c, hc⟩ = some D ∧
      findLongestRemainingJob cores = Int.ofNat c ∧
      ∀ i2 (hi2 : i2 < cores.length), i2 ≠ c → ∀ j,
        cores.get ⟨i2, hi2⟩ = some j →
        remainingTime j < remainingTime D ∨
          (remainingTime j = remainingTime D ∧
            j.arrival_time < D.arrival_time) := by
  have heq := findLRJAux_eq_best cores 0 (-1) 0 0 hsome
  have hne0 : ∀ j, some j ∈ cores →
      (remainingTime j, j.arrival_time) ≠ ((0 : Int), (0 : Int)) := by
    intro j hj h0
    have := hpos j (mem_filterMap_id hj)
    rw [Prod.mk.injEq] at h0
    omega
  have hpw : (cores.filterMap id).Pairwise
      (fun a b => (remainingTime a, a.arrival_time) ≠
        (remainingTime b, b.arrival_time)) := by
    refine hdist.imp ?_
    intro a b hab h0
    exact hab (congrArg Prod.snd h0)
  rcases findBestAux_spec remainingTime cores 0 (-1) 0 0 hsome hne0 hpw with
    ⟨_, hall⟩ | ⟨k, hk, D, hget, heq2, _, hothers⟩
  · exfalso
    cases cores with
    | nil => exact hne rfl
    | cons slot rest =>
        cases slot with
        | none =>
            have := hsome none (List.mem_cons_self _ _)
            simp at this
        | some j0 =>
            have hmem : some j0 ∈ some j0 :: rest := List.mem_cons_self _ _
            have hl := hall j0 hmem
            have hp := hpos j0 (mem_filterMap_id hmem)
            rcases hl with hl | ⟨hl, _⟩ <;> simp at hl <;> omega
  · refine ⟨k, hk, D, hget, ?_, ?_⟩
    · rw [findLongestRemainingJob, heq, heq2]
      congr 1
      omega
    · intro i2 hi2 hne2 j hgetj
      have h := hothers i2 hi2 hne2 j hgetj
      rcases h with h | ⟨h1, h2⟩
      · exact Or.inl h
      · exact Or.inr ⟨h1, h2⟩

/-- `findWorstPriorityJob` on a fully-occupied non-empty core array
whose jobs have positive priority values and pairwise distinct arrival
times returns the slot of the job with the numerically largest priority,
ties broken toward the later arrival time. -/
theorem findWorstPriorityJob_spec (cores : List (Option job_t))
    (hsome : ∀ s ∈ cores, s.isSome = true)
    (hne : cores ≠ [])
    (hpos : ∀ j ∈ cores.filterMap id, 0 < j.priority)
    (hdist : (cores.filterMap id).Pairwise
      (fun a b => a.arrival_time ≠ b.arrival_time)) :
    ∃ c, ∃ hc : c < cores.length, ∃ D,
      cores.get ⟨c, hc⟩ = some D ∧
      findWorstPriorityJob cores = Int.ofNat c ∧
      ∀ i2 (hi2 : i2 < cores.length), i2 ≠ c → ∀ j,
        cores.get ⟨i2, hi2⟩ = some j →
        j.priority < D.priority ∨
          (j.priority = D.priority ∧
            j.arrival_time < D.arrival_time) := by
  have heq := findWPJAux_eq_best cores 0 (-1) 0 0 hsome
  have hne0 : ∀ j, some j ∈ cores →
      (j.priority, j.arrival_time) ≠ ((0 : Int), (0 : Int)) := by
    intro j hj h0
    have := hpos j (mem_filterMap_id hj)
    rw [Prod.mk.injEq] at h0
    omega
  have hpw : (cores.filterMap id).Pairwise
      (fun a b => (a.priority, a.arrival_time) ≠
        (b.priority, b.arrival_time)) := by
    refine hdist.imp ?_
    intro a b hab h0
    exact hab (congrArg Prod.snd h0)
  rcases findBestAux_spec (fun j => j.priority) cores 0 (-1) 0 0 hsome hne0
      hpw with
    ⟨_, hall⟩ | ⟨k, hk, D, hget, heq2, _, hothers⟩
  · exfalso
    cases cores with
    | nil => exact hne rfl
    | cons slot rest =>
        cases slot with
        | none =>
            have := hsome none (List.mem_cons_self _ _)
            simp at this
        | some j0 =>
            have hmem : some j0 ∈ some j0 :: rest := List.mem_cons_self _ _
            have hl := hall j0 hmem
            have hp := hpos j0 (mem_filterMap_id hmem)
            rcases hl with hl | ⟨hl, _⟩ <;> simp at hl <;> omega
  · refine ⟨k, hk, D, hget, ?_, ?_⟩
    · rw [findWorstPriorityJob, heq, heq2]
      congr 1
      omega
    · intro i2 hi2 hne2 j hgetj
      have h := hothers i2 hi2 hne2 j hgetj
      rcases h with h | ⟨h1, h2⟩
      · exact Or.inl h
      · exact Or.inr ⟨h1, h2⟩

/-- C1: PSJF arrival with every core occupied.  Under the source-level
well-formedness conditions (occupied slots hold jobs with positive
stored remaining time and pairwise distinct arrival times, as the
simulator guarantees), the scan picks the slot of the running job `D`
with the greatest remaining time, ties toward the later arrival; the
arrival is enqueued with return -1 when `D`-s current remaining time
(stored remaining minus elapsed run since last dispatch) is at most the
arrival-s required run time, and otherwise `D` is charged its elapsed
run and enqueued, the arrival is installed on `D`-s slot with dispatch
time `time`, and that slot index is returned. -/
theorem scheduler_new_job_psjf_spec (s : scheduler_t)
    (job_number time running_time priority : Int)
    (hscheme : s.scheduler_scheme = scheme_t.PSJF)
    (hfull : ∀ slot ∈ s.current_jobs_on_cores, slot.isSome = true)
    (hne : s.current_jobs_on_cores ≠ [])
    (hpos : ∀ j ∈ s.current_jobs_on_cores.filterMap id, 0 < remainingTime j)
    (hdist : (s.current_jobs_on_cores.filterMap id).Pairwise
      (fun a b => a.arrival_time ≠ b.arrival_time)) :
    ∃ c, ∃ hc : c < s.current_jobs_on_cores.length, ∃ D,
      s.current_jobs_on_cores.get ⟨c, hc⟩ = some D ∧
      findLongestRemainingJob s.current_jobs_on_cores = Int.ofNat c ∧
      (∀ i2 (hi2 : i2 < s.current_jobs_on_cores.length), i2 ≠ c → ∀ j,
        s.current_jobs_on_cores.get ⟨i2, hi2⟩ = some j →
        remainingTime j < remainingTime D ∨
          (remainingTime j = remainingTime D ∧
            j.arrival_time < D.arrival_time)) ∧
      (remainingTime D - (time - D.last_start_time) ≤ running_time →
        scheduler_new_job s job_number time running_time priority =
          ({ s with job_queue :=
              (priqueue_offer SJFcompare s.job_queue
                (arrivalJob job_number time running_time priority)).1 },
           -1)) ∧
      (running_time < remainingTime D - (time - D.last_start_time) →
        scheduler_new_job s job_number time running_time priority =
          ({ s with
              current_jobs_on_cores :=
                s.current_jobs_on_cores.set c
                  (some { arrivalJob job_number time running_time priority
                            with last_start_time := time }),
              job_queue :=
                (priqueue_offer SJFcompare s.job_queue
                  { D with used_time :=
                      D.used_time + (time - D.last_start_time) }).1 },
           Int.ofNat c)) := by
  obtain ⟨c, hc, D, hget, hfind, hmax⟩ :=
    findLongestRemainingJob_spec s.current_jobs_on_cores hfull hne hpos hdist
  have hidle := idleCore_all_some s.current_jobs_on_cores hfull
  have hderef : derefSlot s.current_jobs_on_cores (Int.ofNat c) = D :=
    derefSlot_get _ c hc D hget
  have htn : (Int.ofNat c).toNat = c := rfl
  refine ⟨c, hc, D, hget, hfind, hmax, ?_, ?_⟩
  · intro hR
    simp only [scheduler_new_job, hidle, ne_eq, not_true_eq_false, if_false,
      hscheme, hfind, hderef, schemeComparer, arrivalJob]
    rw [if_pos hR]
  · intro hR
    have hR2 :
        ¬ remainingTime D - (time - D.last_start_time) ≤ running_time := by
      omega
    simp only [scheduler_new_job, hidle, ne_eq, not_true_eq_false, if_false,
      hscheme, hfind, hderef, schemeComparer, arrivalJob, htn]
    rw [if_neg hR2]

/-- Witness for the PSJF arrival theorem: job B (run time 3) arriving at
t=2 preempts `jobA0` whose current remaining time is 10 - 2 = 8. -/
theorem scheduler_new_job_psjf_spec_witness :
    (psjfState.scheduler_scheme = scheme_t.PSJF) ∧
    (∀ slot ∈ psjfState.current_jobs_on_cores, slot.isSome = true) ∧
    (psjfState.current_jobs_on_cores ≠ []) ∧
    (∀ j ∈ psjfState.current_jobs_on_cores.filterMap id,
      0 < remainingTime j) ∧
    ((psjfState.current_jobs_on_cores.filterMap id).Pairwise
      (fun a b => a.arrival_time ≠ b.arrival_time)) ∧
    (∃ c, ∃ hc : c < psjfState.current_jobs_on_cores.length, ∃ D,
      psjfState.current_jobs_on_cores.get ⟨c, hc⟩ = some D ∧
      findLongestRemainingJob psjfState.current_jobs_on_cores =
        Int.ofNat c ∧
      (∀ i2 (hi2 : i2 < psjfState.current_jobs_on_cores.length), i2 ≠ c →
        ∀ j, psjfState.current_jobs_on_cores.get ⟨i2, hi2⟩ = some j →
        remainingTime j < remainingTime D ∨
          (remainingTime j = remainingTime D ∧
            j.arrival_time < D.arrival_time)) ∧
      (remainingTime D - (2 - D.last_start_time) ≤ 3 →
        scheduler_new_job psjfState 1 2 3 1 =
          ({ psjfState with job_queue :=
              (priqueue_offer SJFcompare psjfState.job_queue
                (arrivalJob 1 2 3 1)).1 },
           -1)) ∧
      (3 < remainingTime D - (2 - D.last_start_time) →
        scheduler_new_job psjfState 1 2 3 1 =
          ({ psjfState with
              current_jobs_on_cores :=
                psjfState.current_jobs_on_cores.set c
                  (some { arrivalJob 1 2 3 1 with last_start_time := 2 }),
              job_queue :=
                (priqueue_offer SJFcompare psjfState.job_queue
                  { D with used_time :=
                      D.used_time + (2 - D.last_start_time) }).1 },
           Int.ofNat c))) :=
  ⟨by decide, by decide, by decide, by decide, by decide,
   scheduler_new_job_psjf_spec psjfState 1 2 3 1 (by decide) (by decide)
     (by decide) (by decide) (by decide)⟩

/-- C2: PPRI arrival with every core occupied.  Under the source-level
well-formedness conditions (occupied jobs have positive priority values
and pairwise distinct arrival times), the scan picks the slot of the
running job `D` with the numerically largest priority, ties toward the
later arrival; if `D`-s priority is numerically at most the arrival-s
priority the arrival is enqueued with return -1, and otherwise `D` is
charged its elapsed run and enqueued, the arrival is installed on `D`-s
slot with dispatch time `time`, and that slot index is returned. -/
theorem scheduler_new_job_ppri_spec (s : scheduler_t)
    (job_number time running_time priority : Int)
    (hscheme : s.scheduler_scheme = scheme_t.PPRI)
    (hfull : ∀ slot ∈ s.current_jobs_on_cores, slot.isSome = true)
    (hne : s.current_jobs_on_cores ≠ [])
    (hpos : ∀ j ∈ s.current_jobs_on_cores.filterMap id, 0 < j.priority)
    (hdist : (s.current_jobs_on_cores.filterMap id).Pairwise
      (fun a b => a.arrival_time ≠ b.arrival_time)) :
    ∃ c, ∃ hc : c < s.current_jobs_on_cores.length, ∃ D,
      s.current_jobs_on_cores.get ⟨c, hc⟩ = some D ∧
      findWorstPriorityJob s.current_jobs_on_cores = Int.ofNat c ∧
      (∀ i2 (hi2 : i2 < s.current_jobs_on_cores.length), i2 ≠ c → ∀ j,
        s.current_jobs_on_cores.get ⟨i2, hi2⟩ = some j →
        j.priority < D.priority ∨
          (j.priority = D.priority ∧
            j.arrival_time < D.arrival_time)) ∧
      (D.priority ≤ priority →
        scheduler_new_job s job_number time running_time priority =
          ({ s with job_queue :=
              (priqueue_offer PRIcompare s.job_queue
                (arrivalJob job_number time running_time priority)).1 },
           -1)) ∧
      (priority < D.priority →
        scheduler_new_job s job_number time running_time priority =
          ({ s with
              current_jobs_on_cores :=
                s.current_jobs_on_cores.set c
                  (some { arrivalJob job_number time running_time priority
                            with last_start_time := time }),
              job_queue :=
                (priqueue_offer PRIcompare s.job_queue
                  { D with used_time :=
                      D.used_time + (time - D.last_start_time) }).1 },
           Int.ofNat c)) := by
  obtain ⟨c, hc, D, hget, hfind, hmax⟩ :=
    findWorstPriorityJob_spec s.current_jobs_on_cores hfull hne hpos hdist
  have hidle := idleCore_all_some s.current_jobs_on_cores hfull
  have hderef : derefSlot s.current_jobs_on_cores (Int.ofNat c) = D :=
    derefSlot_get _ c hc D hget
  have htn : (Int.ofNat c).toNat = c := rfl
  refine ⟨c, hc, D, hget, hfind, hmax, ?_, ?_⟩
  · intro hR
    simp only [scheduler_new_job, hidle, ne_eq, not_true_eq_false, if_false,
      hscheme, hfind, hderef, schemeComparer, arrivalJob]
    rw [if_pos hR]
  · intro hR
    have hR2 : ¬ D.priority ≤ priority := by omega
    simp only [scheduler_new_job, hidle, ne_eq, not_true_eq_false, if_false,
      hscheme, hfind, hderef, schemeComparer, arrivalJob, htn]
    rw [if_neg hR2]

/-- Witness for the PPRI arrival theorem: a priority-3 job arriving at
t=2 displaces the later-arrived (t=1) of the two equal-priority
occupants, i.e. slot 1, not slot 0. -/
theorem scheduler_new_job_ppri_spec_witness :
    (ppriState.scheduler_scheme = scheme_t.PPRI) ∧
    (∀ slot ∈ ppriState.current_jobs_on_cores, slot.isSome = true) ∧
    (ppriState.current_jobs_on_cores ≠ []) ∧
    (∀ j ∈ ppriState.current_jobs_on_cores.filterMap id, 0 < j.priority) ∧
    ((ppriState.current_jobs_on_cores.filterMap id).Pairwise
      (fun a b => a.arrival_time ≠ b.arrival_time)) ∧
    (∃ c, ∃ hc : c < ppriState.current_jobs_on_cores.length, ∃ D,
      ppriState.current_jobs_on_cores.get ⟨c, hc⟩ = some D ∧
      findWorstPriorityJob ppriState.current_jobs_on_cores = Int.ofNat c ∧
      (∀ i2 (hi2 : i2 < ppriState.current_jobs_on_cores.length), i2 ≠ c →
        ∀ j, ppriState.current_jobs_on_cores.get ⟨i2, hi2⟩ = some j →
        j.priority < D.priority ∨
          (j.priority = D.priority ∧
            j.arrival_time < D.arrival_time)) ∧
      (D.priority ≤ 3 →
        scheduler_new_job ppriState 2 2 4 3 =
          ({ ppriState with job_queue :=
              (priqueue_offer PRIcompare ppriState.job_queue
                (arrivalJob 2 2 4 3)).1 },
           -1)) ∧
      (3 < D.priority →
        scheduler_new_job ppriState 2 2 4 3 =
          ({ ppriState with
              current_jobs_on_cores :=
                ppriState.current_jobs_on_cores.set c
                  (some { arrivalJob 2 2 4 3 with last_start_time := 2 }),
              job_queue :=
                (priqueue_offer PRIcompare ppriState.job_queue
                  { D with used_time :=
                      D.used_time + (2 - D.last_start_time) }).1 },
           Int.ofNat c))) ∧
    findWorstPriorityJob ppriState.current_jobs_on_cores = 1 :=
  ⟨by decide, by decide, by decide, by decide, by decide,
   scheduler_new_job_ppri_spec ppriState 2 2 4 3 (by decide) (by decide)
     (by decide) (by decide) (by decide),
   by decide⟩

/-- On a well-formed queue with occupied cells all written, a non-empty
poll returns an element. -/
theorem poll_nonempty {α : Type} (q : Priqueue α) (hinv : PqInv q)
    (hwf : ∀ cell ∈ Occ q, cell.isSome = true) (hne : q.curr_size ≠ 0) :
    ∃ a, (priqueue_poll q).2 = some a := by
  obtain ⟨hlen, hlt⟩ := hinv
  have hp2 : (priqueue_poll q).2 = q.queue_array.getD 0 none := by
    simp [priqueue_poll, hne]
  have hlenpos : 0 < q.queue_array.length := by omega
  obtain ⟨a, A', hA⟩ : ∃ a A', q.queue_array = a :: A' :=
    List.exists_cons_of_ne_nil (List.ne_nil_of_length_pos hlenpos)
  have hgd : q.queue_array.getD 0 none = a := by rw [hA]; rfl
  have hmem : a ∈ Occ q := by
    rw [Occ, hA]
    cases hcs : q.curr_size with
    | zero => exact absurd hcs hne
    | succ m =>
        simp [List.take_cons]
  have := hwf a hmem
  obtain ⟨x, hx⟩ := Option.isSome_iff_exists.mp this
  exact ⟨x, by rw [hp2, hgd, hx]⟩

theorem respUpdate_pid (nj : job_t) (x : Int) :
    (if nj.used_time = 0 then { nj with job_response_time := x }
     else nj).pid = nj.pid := by
  split <;> rfl

/-- C3: finishing the job on slot `core_id` clears the slot, folds the
departed job's wait, turnaround and recorded response time plus one
finished job into the aggregates, then polls the waiting structure: on
an empty queue it returns -1 leaving the slot idle, otherwise the polled
job gets its response time set to (time - arrival) exactly when its used
time is zero, is installed with dispatch time `time`, and its pid is
returned. -/
theorem scheduler_job_finished_spec (s : scheduler_t) (core_id : Nat)
    (job_number time : Int) (J : job_t)
    (hc : core_id < s.current_jobs_on_cores.length)
    (hslot : s.current_jobs_on_cores.get ⟨core_id, hc⟩ = some J)
    (hinv : PqInv s.job_queue)
    (hwf : ∀ cell ∈ Occ s.job_queue, cell.isSome = true) :
    (s.job_queue.curr_size = 0 →
      scheduler_job_finished s (Int.ofNat core_id) job_number time =
        ({ s with
            current_jobs_on_cores :=
              s.current_jobs_on_cores.set core_id none,
            total_jobs_count := s.total_jobs_count + 1,
            total_wait_time := s.total_wait_time +
              (time - J.arrival_time - J.total_time_needed),
            total_turn_around_time := s.total_turn_around_time +
              (time - J.arrival_time),
            total_response_time := s.total_response_time +
              J.job_response_time,
            job_queue := (priqueue_poll s.job_queue).1 },
         -1)) ∧
    (s.job_queue.curr_size ≠ 0 →
      ∃ nj, (priqueue_poll s.job_queue).2 = some nj ∧
        scheduler_job_finished s (Int.ofNat core_id) job_number time =
          ({ s with
              current_jobs_on_cores :=
                s.current_jobs_on_cores.set core_id
                  (some { (if nj.used_time = 0 then
                            { nj with job_response_time :=
                                time - nj.arrival_time }
                           else nj) with last_start_time := time }),
              total_jobs_count := s.total_jobs_count + 1,
              total_wait_time := s.total_wait_time +
                (time - J.arrival_time - J.total_time_needed),
              total_turn_around_time := s.total_turn_around_time +
                (time - J.arrival_time),
              total_response_time := s.total_response_time +
                J.job_response_time,
              job_queue := (priqueue_poll s.job_queue).1 },
           nj.pid)) := by
  have hderef : derefSlot s.current_jobs_on_cores (Int.ofNat core_id) = J :=
    derefSlot_get _ core_id hc J hslot
  have htn : (Int.ofNat core_id).toNat = core_id := rfl
  constructor
  · intro h0
    have hpoll : priqueue_poll s.job_queue = (s.job_queue, none) := by
      simp [priqueue_poll, h0]
    simp only [scheduler_job_finished, hderef, htn, hpoll]
  · intro hne
    obtain ⟨nj, hnj⟩ := poll_nonempty s.job_queue hinv hwf hne
    refine ⟨nj, hnj, ?_⟩
    simp only [scheduler_job_finished, hderef, htn, hnj, List.set_set]
    rw [respUpdate_pid]

theorem occ_length {α : Type} (q : Priqueue α) (hinv : PqInv q) :
    (Occ q).length = q.curr_size := by
  obtain ⟨hlen, hlt⟩ := hinv
  simp [Occ, List.length_take]
  omega

theorem poll_eq_occ_head {α : Type} (q : Priqueue α) (hinv : PqInv q)
    (hne : q.curr_size ≠ 0) :
    (priqueue_poll q).2 = (Occ q).getD 0 none := by
  obtain ⟨hlen, hlt⟩ := hinv
  have hp2 : (priqueue_poll q).2 = q.queue_array.getD 0 none := by
    simp [priqueue_poll, hne]
  have hlenpos : 0 < q.queue_array.length := by omega
  obtain ⟨a, A', hA⟩ : ∃ a A', q.queue_array = a :: A' :=
    List.exists_cons_of_ne_nil (List.ne_nil_of_length_pos hlenpos)
  rw [hp2, hA, Occ, hA]
  cases hcs : q.curr_size with
  | zero => exact absurd hcs hne
  | succ m => simp [List.take_cons]

/-- C10: `scheduler_quantum_expired` on an occupied slot re-enqueues the
charged occupant before polling, so the poll always yields a job: that
job is installed on the slot with dispatch time `time`, its pid (a
non-negative number) is returned, and the return value is never -1.
When the waiting structure was empty, the polled job is the former
occupant itself with its elapsed run charged. -/
theorem scheduler_quantum_expired_spec (s : scheduler_t) (core_id : Nat)
    (time : Int) (old : job_t)
    (hc : core_id < s.current_jobs_on_cores.length)
    (hslot : s.current_jobs_on_cores.get ⟨core_id, hc⟩ = some old)
    (hinv : PqInv s.job_queue)
    (hwf : ∀ cell ∈ Occ s.job_queue, cell.isSome = true)
    (hpid : 0 ≤ old.pid)
    (hqpid : ∀ j ∈ (Occ s.job_queue).filterMap id, 0 ≤ j.pid) :
    ∃ nj,
      (priqueue_poll (priqueue_offer (schemeComparer s.scheduler_scheme)
          s.job_queue
          { old with used_time :=
              old.used_time + (time - old.last_start_time) }).1).2 =
        some nj ∧
      scheduler_quantum_expired s (Int.ofNat core_id) time =
        ({ s with
            job_queue :=
              (priqueue_poll (priqueue_offer
                (schemeComparer s.scheduler_scheme) s.job_queue
                { old with used_time :=
                    old.used_time + (time - old.last_start_time) }).1).1,
            current_jobs_on_cores :=
              s.current_jobs_on_cores.set core_id
                (some { (if nj.used_time = 0 then
                          { nj with job_response_time :=
                              time - nj.arrival_time }
                         else nj) with last_start_time := time }) },
         nj.pid) ∧
      0 ≤ nj.pid ∧
      (scheduler_quantum_expired s (Int.ofNat core_id) time).2 ≠ -1 ∧
      (s.job_queue.curr_size = 0 →
        nj = { old with used_time :=
            old.used_time + (time - old.last_start_time) }) := by
  have hderef : derefSlot s.current_jobs_on_cores (Int.ofNat core_id) = old :=
    derefSlot_get _ core_id hc old hslot
  have htn : (Int.ofNat core_id).toNat = core_id := rfl
  set old' : job_t :=
    { old with used_time := old.used_time + (time - old.last_start_time) }
    with hold'
  set q1 : Priqueue job_t :=
    (priqueue_offer (schemeComparer s.scheduler_scheme) s.job_queue old').1
    with hq1
  obtain ⟨hinv1, hsz1, hocc1, _⟩ :=
    offer_occupied (schemeComparer s.scheduler_scheme) s.job_queue old' hinv
  rw [← hq1] at hinv1 hsz1 hocc1
  have hsome1 : ∀ cell ∈ Occ q1, cell.isSome = true := by
    intro cell hcell
    rw [hocc1, List.mem_reverse] at hcell
    rcases mem_bubbleRev _ _ _ cell hcell with h | h
    · rw [h]; rfl
    · rw [List.mem_reverse] at h
      exact hwf cell h
  have hne1 : q1.curr_size ≠ 0 := by omega
  have hlen1 : (Occ q1).length = q1.curr_size := occ_length q1 hinv1
  have hlenpos : (Occ q1) ≠ [] := by
    intro h
    rw [h] at hlen1
    simp at hlen1
    omega
  obtain ⟨cHead, rest, hOccCons⟩ : ∃ c r, Occ q1 = c :: r :=
    List.exists_cons_of_ne_nil hlenpos
  have hhead : (priqueue_poll q1).2 = cHead := by
    rw [poll_eq_occ_head q1 hinv1 hne1, hOccCons]
    rfl
  have hcsome : cHead.isSome = true :=
    hsome1 cHead (by rw [hOccCons]; exact List.mem_cons_self _ _)
  obtain ⟨nj, hnj⟩ := Option.isSome_iff_exists.mp hcsome
  have hpoll2 : (priqueue_poll q1).2 = some nj := by rw [hhead, hnj]
  have hmemq1 : some nj ∈ Occ q1 := by
    rw [hOccCons, ← hnj]
    exact List.mem_cons_self _ _
  have hpidnj : 0 ≤ nj.pid := by
    rw [hocc1, List.mem_reverse] at hmemq1
    rcases mem_bubbleRev _ _ _ (some nj) hmemq1 with h | h
    · have : nj = old' := Option.some.inj h
      rw [this]
      exact hpid
    · rw [List.mem_reverse] at h
      exact hqpid nj (mem_filterMap_id h)
  have hmain :
      scheduler_quantum_expired s (Int.ofNat core_id) time =
        ({ s with
            job_queue := (priqueue_poll q1).1,
            current_jobs_on_cores :=
              s.current_jobs_on_cores.set core_id
                (some { (if nj.used_time = 0 then
                          { nj with job_response_time :=
                              time - nj.arrival_time }
                         else nj) with last_start_time := time }) },
         nj.pid) := by
    simp only [scheduler_quantum_expired, hderef, htn, ← hold', ← hq1,
      hpoll2]
    rw [respUpdate_pid]
  refine ⟨nj, hpoll2, hmain, hpidnj, ?_, ?_⟩
  · rw [hmain]
    simp only []
    omega
  · intro h0
    have hOccNil : Occ s.job_queue = [] := by
      have := occ_length s.job_queue hinv
      rw [h0] at this
      exact List.eq_nil_of_length_eq_zero this
    have : Occ q1 = [some old'] := by
      rw [hocc1, hOccNil]
      simp [bubbleRev]
    rw [this] at hOccCons
    have hch : cHead = some old' := by
      have := hOccCons
      injection this with h1 h2
      exact h1.symm
    rw [hch] at hnj
    exact (Option.some.inj hnj).symm

/-- Witness for the finish theorem: `jobF` finishes on core 0 at t=4
with `jobW` waiting. -/
theorem scheduler_job_finished_spec_witness :
    (∃ hc : 0 < finState.current_jobs_on_cores.length,
      finState.current_jobs_on_cores.get ⟨0, hc⟩ = some jobF) ∧
    PqInv finState.job_queue ∧
    (∀ cell ∈ Occ finState.job_queue, cell.isSome = true) ∧
    ((finState.job_queue.curr_size = 0 →
      scheduler_job_finished finState (Int.ofNat 0) 3 4 =
        ({ finState with
            current_jobs_on_cores :=
              finState.current_jobs_on_cores.set 0 none,
            total_jobs_count := finState.total_jobs_count + 1,
            total_wait_time := finState.total_wait_time +
              (4 - jobF.arrival_time - jobF.total_time_needed),
            total_turn_around_time := finState.total_turn_around_time +
              (4 - jobF.arrival_time),
            total_response_time := finState.total_response_time +
              jobF.job_response_time,
            job_queue := (priqueue_poll finState.job_queue).1 },
         -1)) ∧
    (finState.job_queue.curr_size ≠ 0 →
      ∃ nj, (priqueue_poll finState.job_queue).2 = some nj ∧
        scheduler_job_finished finState (Int.ofNat 0) 3 4 =
          ({ finState with
              current_jobs_on_cores :=
                finState.current_jobs_on_cores.set 0
                  (some { (if nj.used_time = 0 then
                            { nj with job_response_time :=
                                4 - nj.arrival_time }
                           else nj) with last_start_time := 4 }),
              total_jobs_count := finState.total_jobs_count + 1,
              total_wait_time := finState.total_wait_time +
                (4 - jobF.arrival_time - jobF.total_time_needed),
              total_turn_around_time := finState.total_turn_around_time +
                (4 - jobF.arrival_time),
              total_response_time := finState.total_response_time +
                jobF.job_response_time,
              job_queue := (priqueue_poll finState.job_queue).1 },
           nj.pid))) :=
  ⟨⟨by decide, by decide⟩, ⟨by decide, by decide⟩, by decide,
   scheduler_job_finished_spec finState 0 3 4 jobF (by decide) (by decide)
     ⟨by decide, by decide⟩ (by decide)⟩

/-- Witness for the quantum theorem: quantum expires at t=2 on core 0
with an empty queue, so the charged former occupant is re-dispatched and
its pid (3) is returned. -/
theorem scheduler_quantum_expired_spec_witness :
    (∃ hc : 0 < quantState.current_jobs_on_cores.length,
      quantState.current_jobs_on_cores.get ⟨0, hc⟩ = some jobF) ∧
    PqInv quantState.job_queue ∧
    (∀ cell ∈ Occ quantState.job_queue, cell.isSome = true) ∧
    0 ≤ jobF.pid ∧
    (∀ j ∈ (Occ quantState.job_queue).filterMap id, 0 ≤ j.pid) ∧
    (∃ nj,
      (priqueue_poll (priqueue_offer
          (schemeComparer quantState.scheduler_scheme) quantState.job_queue
          { jobF with used_time :=
              jobF.used_time + (2 - jobF.last_start_time) }).1).2 =
        some nj ∧
      scheduler_quantum_expired quantState (Int.ofNat 0) 2 =
        ({ quantState with
            job_queue :=
              (priqueue_poll (priqueue_offer
                (schemeComparer quantState.scheduler_scheme)
                quantState.job_queue
                { jobF with used_time :=
                    jobF.used_time + (2 - jobF.last_start_time) }).1).1,
            current_jobs_on_cores :=
              quantState.current_jobs_on_cores.set 0
                (some { (if nj.used_time = 0 then
                          { nj with job_response_time :=
                              2 - nj.arrival_time }
                         else nj) with last_start_time := 2 }) },
         nj.pid) ∧
      0 ≤ nj.pid ∧
      (scheduler_quantum_expired quantState (Int.ofNat 0) 2).2 ≠ -1 ∧
      (quantState.job_queue.curr_size = 0 →
        nj = { jobF with used_time :=
            jobF.used_time + (2 - jobF.last_start_time) })) :=
  ⟨⟨by decide, by decide⟩, ⟨by decide, by decide⟩, by decide, by decide,
   by decide,
   scheduler_quantum_expired_spec quantState 0 2 jobF (by decide)
     (by decide) ⟨by decide, by decide⟩ (by decide) (by decide)
     (by decide)⟩

/-- C9: the recorded response time is NOT write-once.  Job 1 is first
dispatched at tick 4 (response 4 - 1 = 3 recorded on the core), is
preempted at that same tick with zero accumulated used time, and its
re-dispatch at tick 6 overwrites the response time to 6 - 1 = 5; the
aggregate folded at the finishes is 0 + 0 + 5 = 5, whereas the claim
(first-dispatch tick minus arrival, recorded once) demands
0 + 0 + 3 = 3. -/
theorem response_time_overwritten_on_zero_used_redispatch :
    responseTrace3.2 = 1 ∧
    responseTrace3.1.current_jobs_on_cores =
      [some { pid := 1, arrival_time := 1, priority := 1, used_time := 0,
              total_time_needed := 5, last_start_time := 4,
              job_response_time := 3 }] ∧
    responseTrace5.2 = 1 ∧
    responseTrace5.1.current_jobs_on_cores =
      [some { pid := 1, arrival_time := 1, priority := 1, used_time := 0,
              total_time_needed := 5, last_start_time := 6,
              job_response_time := 5 }] ∧
    responseTrace6.1.total_response_time = 5 ∧
    responseTrace6.1.total_jobs_count = 3 := by
  decide
